import Mathlib

/-!
Shallow embedding of the CGP-viewer core (parser, active-node analyzer,
delay calculator) from `src/utils/cgpParser.js`, `src/utils/cgpNodeAnalyzer.js`
and `src/hooks/useCgpParser.js`.

Conventions of the embedding:
* JS numbers that hold integer data are modelled as `Int` (node indices that
  come from `parseInt` on digit runs are non-negative, but are kept as `Int`
  to match JS comparisons).  `Number(...)` coercion is modelled for integer
  literals; non-integer numeric strings (decimals, exponents, hex) are mapped
  to `none` (NaN) — the realistic inputs of this format are integers.
* JS `Map` (insertion ordered) is an association list.
* JS objects used as dictionaries are association lists with
  newest-binding-first lookup.
* The two potentially non-terminating recursions (`getNodeDelay`, the
  worklist loop of `findActiveNodes`) take explicit fuel; `none` means the
  fuel was exhausted, and termination of the JS code is the statement that
  some fuel suffices.
-/

/-- JS `\s` whitespace class (the characters relevant to this format). -/
def jsIsSpace (c : Char) : Bool :=
  c = ' ' || c = '\t' || c = '\n' || c = '\r' || c = '\x0b' || c = '\x0c'

/-- `str.replace(/\s+/g, '')` : drop every whitespace character. -/
def stripWS (cs : List Char) : List Char :=
  cs.filter (fun c => !jsIsSpace c)

/-- JS `String.prototype.split(sep)` for a one-character separator:
`"".split(',') = [""]`, `"a,,b".split(',') = ["a","","b"]`. -/
def splitChar (sep : Char) : List Char → List (List Char)
  | [] => [[]]
  | c :: rest =>
    if c = sep then [] :: splitChar sep rest
    else
      match splitChar sep rest with
      | t :: ts => (c :: t) :: ts
      | [] => [[c]]

def splitComma : List Char → List (List Char) := splitChar ','

/-- JS `String.prototype.trim()`. -/
def charTrim (cs : List Char) : List Char :=
  ((cs.dropWhile jsIsSpace).reverse.dropWhile jsIsSpace).reverse

/-- Value of a digit run, as used by `parseInt` on `\d+` matches. -/
def digitsToNat (ds : List Char) : Nat :=
  ds.foldl (fun a c => a * 10 + (c.toNat - '0'.toNat)) 0

/-- JS `Number(token)` on a whitespace-free token, restricted to integer
literals: the empty string coerces to `0`, an optional sign followed by
digits to the signed value, anything else to NaN (`none`). -/
def toNumber? (cs : List Char) : Option Int :=
  match cs with
  | [] => some 0
  | '-' :: ds => if ds ≠ [] ∧ ds.all Char.isDigit then some (-(digitsToNat ds : Int)) else none
  | '+' :: ds => if ds ≠ [] ∧ ds.all Char.isDigit then some ((digitsToNat ds : Int)) else none
  | ds => if ds.all Char.isDigit then some ((digitsToNat ds : Int)) else none

/-- `.map(Number)` over the split tokens followed by the `some(isNaN)` test:
`none` iff some token is NaN. -/
def toNumbers : List (List Char) → Option (List Int)
  | [] => some []
  | t :: ts =>
    match toNumber? t, toNumbers ts with
    | some v, some vs => some (v :: vs)
    | _, _ => none

/-- `List.span`-like helper with a length bound that is convenient for
termination proofs of the regex scanners. -/
def spanChars (p : Char → Bool) : List Char → List Char × List Char
  | [] => ([], [])
  | c :: cs =>
    if p c then
      let r := spanChars p cs
      (c :: r.1, r.2)
    else ([], c :: cs)

/-- First match of `/\{([^}]+)\}/` (the configuration block): scan left to
right for a `{` followed by a nonempty run of non-`}` characters and a `}`;
return the run. -/
def findConfigContent : List Char → Option (List Char)
  | [] => none
  | c :: rest =>
    if c = '{' then
      let r := spanChars (fun d => d ≠ '}') rest
      match r.2 with
      | '}' :: _ => if r.1 = [] then findConfigContent rest else some r.1
      | _ => findConfigContent rest
    else findConfigContent rest

/-- All matches of `/\(\[(\d+)\]([^)]+)\)/g` (node definitions), scanning
left to right, non-overlapping; on a failed attempt the scan restarts one
character later, exactly like the JS regex engine.  The fuel argument is a
step counter used only to make the recursion structural: every step
shortens the list, so `length + 1` fuel can never run out. -/
def scanNodesF : Nat → List Char → List (Int × List Char)
  | 0, _ => []
  | _ + 1, [] => []
  | fuel + 1, '(' :: '[' :: rest2 =>
    match (spanChars Char.isDigit rest2).2 with
    | ']' :: rest3 =>
      match (spanChars (fun d => d ≠ ')') rest3).2 with
      | ')' :: rest4 =>
        if (spanChars Char.isDigit rest2).1 ≠ [] ∧ (spanChars (fun d => d ≠ ')') rest3).1 ≠ [] then
          ((digitsToNat (spanChars Char.isDigit rest2).1 : Int),
            (spanChars (fun d => d ≠ ')') rest3).1) :: scanNodesF fuel rest4
        else scanNodesF fuel ('[' :: rest2)
      | _ => scanNodesF fuel ('[' :: rest2)
    | _ => scanNodesF fuel ('[' :: rest2)
  | fuel + 1, _ :: rest => scanNodesF fuel rest

def scanNodes (cs : List Char) : List (Int × List Char) :=
  scanNodesF (cs.length + 1) cs

/-- The characters strictly after the last `(` of the string, if any. -/
def afterLastLParen : List Char → Option (List Char)
  | [] => none
  | c :: rest =>
    match afterLastLParen rest with
    | some r => some r
    | none => if c = '(' then some rest else none

/-- Parses `\d+(,\d+)*\)` running exactly to the end of the string,
returning the digit-group values.  The fuel argument only makes the
recursion structural; every step shortens the list. -/
def parseOutputContentF : Nat → List Char → Option (List Int)
  | 0, _ => none
  | fuel + 1, cs =>
    if (spanChars Char.isDigit cs).1 = [] then none
    else
      match (spanChars Char.isDigit cs).2 with
      | [')'] => some [(digitsToNat (spanChars Char.isDigit cs).1 : Int)]
      | ',' :: rest2 =>
        match parseOutputContentF fuel rest2 with
        | some vs => some ((digitsToNat (spanChars Char.isDigit cs).1 : Int) :: vs)
        | none => none
      | _ => none

def parseOutputContent (cs : List Char) : Option (List Int) :=
  parseOutputContentF (cs.length + 1) cs

/-- Match of `/\((\d+(?:,\d+)*)\)$/` : because the group may contain only
digits and commas, any match must start at the last `(` and run to the end
of the string. -/
def findOutputGroups (cs : List Char) : Option (List Int) :=
  match afterLastLParen cs with
  | none => none
  | some tail => parseOutputContent tail

/-- The `config` object assembled by `parseCGPString`.  `lback` and
`funcSetSize` are `undefined` (`none`) when the block has fewer than 6 or 7
parameters. -/
structure Config where
  inputs : Int
  outputs : Int
  rows : Int
  cols : Int
  arity : Int
  lback : Option Int
  funcSetSize : Option Int
  startIndex : Int
deriving Repr, DecidableEq

/-- One entry of the `nodeDefinitions` map. -/
structure NodeDef where
  index : Int
  funcId : Int
  inputs : List Int
deriving Repr, DecidableEq

/-- Insertion-ordered `Map<number, NodeDef>`. -/
abbrev Defs := List (Int × NodeDef)

/-- `nodeDefinitions.has(k)`. -/
def hasKey (defs : Defs) (k : Int) : Bool :=
  defs.any (fun e => e.1 = k)

/-- `nodeDefinitions.get(k)`. -/
def lookupDef (defs : Defs) (k : Int) : Option NodeDef :=
  (defs.find? (fun e => e.1 = k)).map (·.2)

def configCountError (n : Nat) : String :=
  "Config needs >= 5 params (in,out,rows,cols,arity), found " ++ toString n ++ "."

def missingConfigError : String := "No config block \x7b\x7d found."

def configNaNError : String := "Config block has non-numeric values."

def configValuesError : String :=
  "Invalid config values (inputs/outputs>=0, rows/cols>0, arity>=2)."

def missingOutputError : String := "No output definition (...) found at end."

def mkConfig (ps : List Int) : Config :=
  { inputs := ps.getD 0 0, outputs := ps.getD 1 0, rows := ps.getD 2 0,
    cols := ps.getD 3 0, arity := ps.getD 4 0,
    lback := ps.get? 5, funcSetSize := ps.get? 6,
    startIndex := ps.getD 0 0 }

/-- Configuration stage of `parseCGPString` (cgpParser.js lines 20–36). -/
def parseConfig (cs : List Char) : Except String Config :=
  match findConfigContent cs with
  | none => Except.error missingConfigError
  | some content =>
    match toNumbers ((splitComma content).map charTrim) with
    | none => Except.error configNaNError
    | some ps =>
      if ps.length < 5 then Except.error (configCountError ps.length)
      else if (mkConfig ps).inputs < 0 ∨ (mkConfig ps).outputs < 0 ∨ (mkConfig ps).rows ≤ 0 ∨
          (mkConfig ps).cols ≤ 0 ∨ (mkConfig ps).arity < 2 then
        Except.error configValuesError
      else Except.ok (mkConfig ps)

def nodeRangeError (idx lo hi : Int) : String :=
  "Node index " ++ toString idx ++ " out of range [" ++ toString lo ++ "-" ++ toString hi ++ "]."

def dupNodeError (idx : Int) : String :=
  "Duplicate node index " ++ toString idx ++ "."

def nodeNaNError (idx : Int) (content : List Char) : String :=
  "Node [" ++ toString idx ++ "] definition contains non-numeric values: \"(" ++ String.mk content ++ ")\""

def nodeArityError (idx arity : Int) (found : Nat) (content : List Char) : String :=
  "Node [" ++ toString idx ++ "] definition expected exactly " ++ toString arity ++
    " inputs + 1 funcId (" ++ toString (arity + 1) ++ " parts), but found " ++
    toString found ++ " in \"(" ++ String.mk content ++ ")\""

/-- Node-definition loop of `parseCGPString` (cgpParser.js lines 40–72),
recording nodes in match order into the accumulator. -/
def processNodes (cfg : Config) : List (Int × List Char) → Defs → Except String Defs
  | [], acc => Except.ok acc
  | (idx, content) :: rest, acc =>
    if idx < cfg.startIndex ∨ idx > cfg.startIndex + cfg.rows * cfg.cols - 1 then
      Except.error (nodeRangeError idx cfg.startIndex (cfg.startIndex + cfg.rows * cfg.cols - 1))
    else if hasKey acc idx then Except.error (dupNodeError idx)
    else
      match toNumbers ((splitComma content).map charTrim) with
      | none => Except.error (nodeNaNError idx content)
      | some parts =>
        if (parts.length : Int) ≠ cfg.arity + 1 then
          Except.error (nodeArityError idx cfg.arity parts.length content)
        else
          processNodes cfg rest
            (acc ++ [(idx, ⟨idx, parts.getD cfg.arity.toNat 0, parts.take cfg.arity.toNat⟩)])

def parseNodes (cfg : Config) (cs : List Char) : Except String Defs :=
  processNodes cfg (scanNodes cs) []

def outputCountError (expected : Int) (found : Nat) : String :=
  "Config outputs=" ++ toString expected ++ ", but found " ++ toString found ++ " in output def ()."

def outputRefError (o : Int) : String :=
  "Output index " ++ toString o ++ " invalid (not primary input or defined node)."

/-- Per-output validity loop (cgpParser.js lines 82–88): first failure wins. -/
def checkOutputs (cfg : Config) (defs : Defs) : List Int → Option String
  | [] => none
  | o :: os =>
    if (0 ≤ o ∧ o < cfg.inputs) ∨ (cfg.startIndex ≤ o ∧ hasKey defs o = true) then
      checkOutputs cfg defs os
    else some (outputRefError o)

/-- Output stage of `parseCGPString` (cgpParser.js lines 76–88).  The
matched groups are digit runs, so the JS NaN re-check can never fire and is
omitted. -/
def parseOutputs (cfg : Config) (defs : Defs) (cs : List Char) : Except String (List Int) :=
  match findOutputGroups cs with
  | none => Except.error missingOutputError
  | some outs =>
    if (outs.length : Int) ≠ cfg.outputs then
      Except.error (outputCountError cfg.outputs outs.length)
    else
      match checkOutputs cfg defs outs with
      | some e => Except.error e
      | none => Except.ok outs

/-- The success payload of `parseCGPString`. -/
structure ParseOk where
  config : Config
  nodeDefinitions : Defs
  outputNodeIndices : List Int
deriving Repr, DecidableEq

inductive ParseResult where
  | error (msg : String)
  | ok (res : ParseOk)
deriving Repr, DecidableEq

def ParseResult.isOk : ParseResult → Bool
  | .ok _ => true
  | .error _ => false

def ParseResult.defsOf : ParseResult → Option Defs
  | .ok p => some p.nodeDefinitions
  | .error _ => none

/-- Body of `parseCGPString` after whitespace removal. -/
def parseStripped (cs : List Char) : ParseResult :=
  match parseConfig cs with
  | Except.error e => ParseResult.error e
  | Except.ok cfg =>
    match parseNodes cfg cs with
    | Except.error e => ParseResult.error e
    | Except.ok defs =>
      match parseOutputs cfg defs cs with
      | Except.error e => ParseResult.error e
      | Except.ok outs => ParseResult.ok ⟨cfg, defs, outs⟩

/-- `parseCGPString` (cgpParser.js lines 8–92): strip whitespace, parse the
configuration block, scan and validate all node definitions, then parse and
validate the trailing output block; the first failing check aborts the
parse. -/
def parseCGPString (s : String) : ParseResult :=
  parseStripped (stripWS s.data)

/-- Column of a grid index, as the spec's `column(i) =
floor((i - startIndex) / rows)` (all uses are at indices `≥ startIndex`
with `rows > 0`, where `Int` division is floor division). -/
def nodeColumn (cfg : Config) (i : Int) : Int :=
  (i - cfg.startIndex) / cfg.rows

/-! ### Active-node analyzer (`cgpNodeAnalyzer.js`, `findActiveNodes`) -/

/-- Seeding loop (cgpNodeAnalyzer.js lines 21–28): every output reference
`≥ startIndex` that is not yet visited is marked visited and pushed.  The
stack is modelled head-as-top, so a JS `push` is a `cons`. -/
def seedOutputs (si : Int) : List Int → List Int → List Int → List Int × List Int
  | [], visited, stack => (visited, stack)
  | o :: rest, visited, stack =>
    if si ≤ o ∧ o ∉ visited then seedOutputs si rest (o :: visited) (o :: stack)
    else seedOutputs si rest visited stack

/-- Inner input-tracing loop (cgpNodeAnalyzer.js lines 42–49): each input
reference that is `≥ inputs`, present in the node map, and unvisited is
marked visited and pushed. -/
def pushInputs (ic : Int) (defs : Defs) : List Int → List Int → List Int → List Int × List Int
  | [], visited, stack => (visited, stack)
  | r :: rest, visited, stack =>
    if ic ≤ r ∧ hasKey defs r = true ∧ r ∉ visited then
      pushInputs ic defs rest (r :: visited) (r :: stack)
    else pushInputs ic defs rest visited stack

/-- The worklist loop of `findActiveNodes` (cgpNodeAnalyzer.js lines
31–51), with explicit fuel (`none` = fuel exhausted before the worklist
emptied). -/
def fanLoop : Nat → Int → Int → Defs → List Int → List Int → List Int → Option (List Int)
  | _, _, _, _, active, _, [] => some active
  | 0, _, _, _, _, _, _ :: _ => none
  | fuel + 1, si, ic, defs, active, visited, cur :: rest =>
    let active' := if si ≤ cur ∧ hasKey defs cur = true then cur :: active else active
    match lookupDef defs cur with
    | none => fanLoop fuel si ic defs active' visited rest
    | some nd =>
      let vs := pushInputs ic defs nd.inputs visited rest
      fanLoop fuel si ic defs active' vs.1 vs.2

/-- `findActiveNodes(config, nodeDefinitions, outputNodeIndices)`
(cgpNodeAnalyzer.js lines 12–54).  The JS null/empty guard collapses, in
this typed embedding, to the empty-output early return.  The active set is
represented as a duplicate-free list. -/
def findActiveNodes (fuel : Nat) (cfg : Config) (defs : Defs) (outs : List Int) :
    Option (List Int) :=
  if outs = [] then some []
  else
    let vs := seedOutputs cfg.startIndex outs [] []
    fanLoop fuel cfg.startIndex cfg.inputs defs [] vs.1 vs.2

/-! ### Delay calculator (`useCgpParser.js`, `calculateNodeDelays` /
`getNodeDelay`)

The JS `delays` object maps keys `String(n)` (numeric node / input
identities) and `"output-i"` (output positions) to integers; the key space
is modelled as `Int ⊕ Nat`.  Insertion is a `cons` and lookup takes the
newest binding, which matches assignment/readback on a JS object. -/

abbrev DelayKey := Sum Int Nat

abbrev DelayMap := List (DelayKey × Int)

def lookupDelay (m : DelayMap) (k : DelayKey) : Option Int :=
  (m.find? (fun e => e.1 = k)).map (·.2)

def insertDelay (m : DelayMap) (k : DelayKey) (v : Int) : DelayMap :=
  (k, v) :: m

/-- `for (let i = 0; i < config.inputs; i++) delays[i] = 0;` -/
def initDelays (inputs : Int) : DelayMap :=
  (List.range inputs.toNat).map (fun i : Nat => ((Sum.inl (i : Int) : DelayKey), (0 : Int)))

/-- `inputDelays.length > 0 ? Math.max(...inputDelays) : 0` -/
def maxOfList : List Int → Int
  | [] => 0
  | x :: xs => xs.foldl max x

/-- The `nodeDef.inputs.map(...)` of `getNodeDelay` (useCgpParser.js lines
221–229), threading the memo table through the recursive calls `g`. -/
def inputDelaysAux (g : Int → DelayMap → Option (Int × DelayMap)) (ic : Int) :
    List Int → DelayMap → Option (List Int × DelayMap)
  | [], delays => some ([], delays)
  | r :: rest, delays =>
    if r < ic then
      match inputDelaysAux g ic rest delays with
      | some (ds, d2) => some (0 :: ds, d2)
      | none => none
    else
      match g r delays with
      | none => none
      | some (d, d2) =>
        match inputDelaysAux g ic rest d2 with
        | some (ds, d3) => some ((d + 1) :: ds, d3)
        | none => none

/-- `getNodeDelay(nodeId, nodeDefinitions, delays, inputCount)`
(useCgpParser.js lines 211–236) with fuel bounding the recursion depth:
return the cached delay if present; a missing definition yields 0 without
caching; otherwise the delay is the maximum over the input delays
(primary inputs contribute 0, node references their delay plus one), which
is cached. -/
def getNodeDelay : Nat → Int → Defs → DelayMap → Int → Option (Int × DelayMap)
  | 0, _, _, _, _ => none
  | fuel + 1, nodeId, defs, delays, ic =>
    match lookupDelay delays (Sum.inl nodeId) with
    | some d => some (d, delays)
    | none =>
      match lookupDef defs nodeId with
      | none => some (0, delays)
      | some nd =>
        match inputDelaysAux (fun r m => getNodeDelay fuel r defs m ic) ic nd.inputs delays with
        | none => none
        | some (ds, d2) =>
          let m := maxOfList ds
          some (m, insertDelay d2 (Sum.inl nodeId) m)

/-- The `nodeDefinitions.forEach` loop of `calculateNodeDelays`
(useCgpParser.js lines 191–197): each defined node below `inputs` is
skipped, every other node's delay is computed (the result is discarded,
the memo table is kept). -/
def runNodeLoop (fuel : Nat) (defs : Defs) (ic : Int) :
    List (Int × NodeDef) → DelayMap → Option DelayMap
  | [], delays => some delays
  | (nodeId, _) :: rest, delays =>
    if nodeId < ic then runNodeLoop fuel defs ic rest delays
    else
      match getNodeDelay fuel nodeId defs delays ic with
      | none => none
      | some (_, d2) => runNodeLoop fuel defs ic rest d2

/-- The `outputNodeIndices.forEach` loop (useCgpParser.js lines 200–206):
`delays["output-" + i] = (delays[source] || 0) + 1`. -/
def runOutputLoop : Nat → List Int → DelayMap → DelayMap
  | _, [], delays => delays
  | pos, src :: rest, delays =>
    runOutputLoop (pos + 1) rest
      (insertDelay delays (Sum.inr pos) ((lookupDelay delays (Sum.inl src)).getD 0 + 1))

/-- `calculateNodeDelays(parsedData)` (useCgpParser.js lines 179–209) on a
successful parse result (the JS null guards are unrepresentable here). -/
def calculateNodeDelays (fuel : Nat) (p : ParseOk) : Option DelayMap :=
  match runNodeLoop fuel p.nodeDefinitions p.config.inputs p.nodeDefinitions
      (initDelays p.config.inputs) with
  | none => none
  | some d => some (runOutputLoop 0 p.outputNodeIndices d)

/-- Termination of the delay computation: some recursion-depth budget
produces a result. -/
def delaysTerminate (p : ParseOk) : Prop :=
  ∃ fuel m, calculateNodeDelays fuel p = some m

/-! ### Directive extractor (`useCgpParser.js`, lines 26–62) -/

/-- `line.substring(line.indexOf(' ') + 1)` : everything after the first
space, or the whole line when there is no space (`indexOf` returns -1). -/
def afterFirstSpace (cs : List Char) : List Char :=
  if ' ' ∈ cs then ((cs.dropWhile (fun c => c ≠ ' ')).tail) else cs

/-- `/i\d+/.test(name)` : some `i` immediately followed by a digit. -/
def containsIDigit : List Char → Bool
  | 'i' :: c :: rest => c.isDigit || containsIDigit (c :: rest)
  | _ :: rest => containsIDigit rest
  | [] => false

/-- `parseInt(name.match(/\d+/)?.[0] || '0')` : the first maximal digit
run, 0 when there is none. -/
def firstDigitRun : List Char → List Char
  | [] => []
  | c :: rest => if c.isDigit then c :: rest.takeWhile Char.isDigit else firstDigitRun rest

def firstNumberIn (cs : List Char) : Nat :=
  digitsToNat (firstDigitRun cs)

/-- The reversed-indices heuristic (useCgpParser.js lines 41–43). -/
def isReversedNames (names : List (List Char)) : Bool :=
  names.length > 1 && names.any containsIDigit &&
    decide (firstNumberIn (names.headD []) > firstNumberIn (names.getLastD []))

/-- The comma-separated, trimmed name pieces of a directive line. -/
def directiveNames (line : List Char) : List (List Char) :=
  (splitComma (charTrim (afterFirstSpace line))).map charTrim

/-- `cgpString.split('\n').filter(line => line.trim())`. -/
def keptLines (cs : List Char) : List (List Char) :=
  (splitChar '\n' cs).filter (fun l => charTrim l ≠ [])

/-- `line.startsWith('#%i')`. -/
def isInputDirective : List Char → Bool
  | '#' :: '%' :: 'i' :: _ => true
  | _ => false

/-- `line.startsWith('#')`. -/
def isHashLine : List Char → Bool
  | '#' :: _ => true
  | _ => false

/-- The input-name accumulation of the line loop (useCgpParser.js lines
35–62): a `#%i` line contributes its pieces — reversed when the heuristic
fires; a `#%o` or other `#` line contributes nothing; the first non-`#`
line stops the scan. -/
def extractInputNames : List (List Char) → List (List Char)
  | [] => []
  | l :: ls =>
    if isInputDirective l then
      (if isReversedNames (directiveNames l) then (directiveNames l).reverse
       else directiveNames l) ++ extractInputNames ls
    else if isHashLine l then extractInputNames ls
    else []

/-- Modelled from the spec: the claimed input-name accumulation, in which
every `#%i` line before the data line contributes its comma-separated,
trimmed pieces in the order they appear in the directive. -/
def specInputNames : List (List Char) → List (List Char)
  | [] => []
  | l :: ls =>
    if isInputDirective l then directiveNames l ++ specInputNames ls
    else if isHashLine l then specInputNames ls
    else []

def inputNamesOf (raw : String) : List String :=
  (extractInputNames (keptLines raw.data)).map String.mk

def claimedInputNamesOf (raw : String) : List String :=
  (specInputNames (keptLines raw.data)).map String.mk

/-- Number of node-map keys not yet in the visited list — the potential of
the worklist measure. -/
def unvisitedCount (defs : Defs) (v : List Int) : Nat :=
  (((defs.map Prod.fst).toFinset).filter (fun k => k ∉ v)).card

/-- One more than every node-map key (as a natural number): enough
recursion depth for any backward-referencing delay computation. -/
def maxKeyNat (defs : Defs) : Nat :=
  (defs.map (fun e => e.1.toNat)).foldr max 0

/-! ### Concrete parse results used by the claim theorems and witnesses -/

/-- The spec's scenario-1 string `"{2,1,1,2,2,2,4}([2]0,1,0)([3]0,1,1)(3)"`. -/
def goodStr : String := "\x7b2,1,1,2,2,2,4\x7d([2]0,1,0)([3]0,1,1)(3)"

/-- The same circuit with a 5-parameter configuration block. -/
def fiveParamStr : String := "\x7b2,1,1,2,2\x7d([2]0,1,0)([3]0,1,1)(3)"

/-- A 3-parameter configuration block. -/
def threeParamStr : String := "\x7b1,2,3\x7d(0)"

/-- Node 2 references node 3 — a forward reference. -/
def forwardRefStr : String := "\x7b2,1,1,2,2,2,4\x7d([2]3,1,0)([3]0,1,1)(3)"

/-- Node 6 (column 2) references node 2 (column 0) with `lback = 1`. -/
def lbackViolStr : String := "\x7b2,1,2,3,2,1,4\x7d([2]0,1,0)([6]2,2,0)(6)"

/-- Node 2 carries `funcId = 99` with `funcSetSize = 4`. -/
def funcIdStr : String := "\x7b2,1,1,2,2,2,4\x7d([2]0,1,99)([3]0,1,1)(3)"

/-- No node definitions; the single output is primary input 1. -/
def noNodesStr : String := "\x7b2,1,1,2,2,2,4\x7d(1)"

/-- Node 2 references itself. -/
def selfRefStr : String := "\x7b2,1,1,2,2,2,4\x7d([2]2,1,0)([3]0,1,1)(3)"

/-- An input-name directive with descending `i`-indices, then a data line. -/
def revNamesStr : String := "#%i i1,i0\nX"

/-- An input-name directive whose names do not look like indices. -/
def plainNamesStr : String := "#%i a,b\n\x7b2,1,1,2,2,2,4\x7d([2]0,1,0)([3]0,1,1)(3)"

/-- The configuration tokens of `threeParamStr`. -/
def threeParamContent : List Char := ('1' :: ',' :: '2' :: ',' :: '3' :: [])

/-- The content of the `funcId = 99` node of `funcIdStr`. -/
def funcIdContent : List Char := ('0' :: ',' :: '1' :: ',' :: '9' :: '9' :: [])

/-- Result of parsing `"{2,1,1,2,2,2,4}([2]0,1,0)([3]0,1,1)(3)"` (the spec's
scenario 1). -/
def goodParse : ParseOk :=
  { config := { inputs := 2, outputs := 1, rows := 1, cols := 2, arity := 2,
                lback := some 2, funcSetSize := some 4, startIndex := 2 },
    nodeDefinitions := [(2, ⟨2, 0, [0, 1]⟩), (3, ⟨3, 1, [0, 1]⟩)],
    outputNodeIndices := [3] }

/-- Result of parsing `"{2,1,2,3,2,1,4}([2]0,1,0)([6]2,2,0)(6)"`: node 6
(column 2) reads node 2 (column 0) although `lback = 1`. -/
def lbackParse : ParseOk :=
  { config := { inputs := 2, outputs := 1, rows := 2, cols := 3, arity := 2,
                lback := some 1, funcSetSize := some 4, startIndex := 2 },
    nodeDefinitions := [(2, ⟨2, 0, [0, 1]⟩), (6, ⟨6, 0, [2, 2]⟩)],
    outputNodeIndices := [6] }

/-- Result of parsing `"{2,1,1,2,2,2,4}([2]0,1,99)([3]0,1,1)(3)"`: node 2
carries `funcId = 99` although `funcSetSize = 4`. -/
def funcIdParse : ParseOk :=
  { config := { inputs := 2, outputs := 1, rows := 1, cols := 2, arity := 2,
                lback := some 2, funcSetSize := some 4, startIndex := 2 },
    nodeDefinitions := [(2, ⟨2, 99, [0, 1]⟩), (3, ⟨3, 1, [0, 1]⟩)],
    outputNodeIndices := [3] }

/-- Result of parsing `"{2,1,1,2,2,2,4}([2]2,1,0)([3]0,1,1)(3)"`: node 2
lists itself among its inputs. -/
def selfRefParse : ParseOk :=
  { config := { inputs := 2, outputs := 1, rows := 1, cols := 2, arity := 2,
                lback := some 2, funcSetSize := some 4, startIndex := 2 },
    nodeDefinitions := [(2, ⟨2, 0, [2, 1]⟩), (3, ⟨3, 1, [0, 1]⟩)],
    outputNodeIndices := [3] }

/-- The delay computation runs out of every fuel budget: the JS recursion
diverges. -/
def delaysDiverge (p : ParseOk) : Prop :=
  ∀ fuel, calculateNodeDelays fuel p = none

/-! ## Helper lemmas about the parse stages -/

theorem parseStripped_ok_inv {cs : List Char} {p : ParseOk}
    (h : parseStripped cs = ParseResult.ok p) :
    parseConfig cs = Except.ok p.config ∧
      parseNodes p.config cs = Except.ok p.nodeDefinitions ∧
      parseOutputs p.config p.nodeDefinitions cs = Except.ok p.outputNodeIndices := by
  unfold parseStripped at h
  cases hc : parseConfig cs with
  | error e => simp only [hc] at h; simp at h
  | ok cfg =>
    simp only [hc] at h
    cases hn : parseNodes cfg cs with
    | error e => simp only [hn] at h; simp at h
    | ok defs =>
      simp only [hn] at h
      cases ho : parseOutputs cfg defs cs with
      | error e => simp only [ho] at h; simp at h
      | ok outs =>
        simp only [ho] at h
        injection h with h
        subst h
        exact ⟨rfl, hn, ho⟩

theorem parse_ok_inv {s : String} {p : ParseOk}
    (h : parseCGPString s = ParseResult.ok p) :
    parseConfig (stripWS s.data) = Except.ok p.config ∧
      parseNodes p.config (stripWS s.data) = Except.ok p.nodeDefinitions ∧
      parseOutputs p.config p.nodeDefinitions (stripWS s.data) =
        Except.ok p.outputNodeIndices :=
  parseStripped_ok_inv h

theorem parseConfig_ok_facts {cs : List Char} {cfg : Config}
    (h : parseConfig cs = Except.ok cfg) :
    cfg.startIndex = cfg.inputs ∧ 0 ≤ cfg.inputs ∧ 0 ≤ cfg.outputs ∧
      0 < cfg.rows ∧ 0 < cfg.cols ∧ 2 ≤ cfg.arity := by
  unfold parseConfig at h
  cases hfc : findConfigContent cs with
  | none => simp only [hfc] at h; simp at h
  | some content =>
    simp only [hfc] at h
    cases htn : toNumbers ((splitComma content).map charTrim) with
    | none => simp only [htn] at h; simp at h
    | some ps =>
      simp only [htn] at h
      split at h
      · simp at h
      · split at h
        · simp at h
        · rename_i hvalid
          injection h with h
          subst h
          push_neg at hvalid
          exact ⟨rfl, hvalid.1, hvalid.2.1, hvalid.2.2.1, hvalid.2.2.2.1, hvalid.2.2.2.2⟩

theorem processNodes_prefix (cfg : Config) :
    ∀ (cands : List (Int × List Char)) (acc defs : Defs),
      processNodes cfg cands acc = Except.ok defs → ∃ ext, defs = acc ++ ext := by
  intro cands
  induction cands with
  | nil =>
    intro acc defs h
    unfold processNodes at h
    injection h with h
    exact ⟨[], by simp [h]⟩
  | cons hd tl ih =>
    intro acc defs h
    obtain ⟨idx, content⟩ := hd
    unfold processNodes at h
    split at h
    · simp at h
    · split at h
      · simp at h
      · cases htn : toNumbers ((splitComma content).map charTrim) with
        | none => simp only [htn] at h; simp at h
        | some parts =>
          simp only [htn] at h
          split at h
          · simp at h
          · obtain ⟨ext, hext⟩ := ih _ _ h
            exact ⟨_, by simpa using hext⟩

theorem lookupDef_append_left {acc rest : Defs} {k : Int}
    (h : hasKey acc k = false) : lookupDef (acc ++ rest) k = lookupDef rest k := by
  unfold lookupDef
  rw [List.find?_append]
  have hnone : acc.find? (fun e => decide (e.1 = k)) = none := by
    rw [List.find?_eq_none]
    intro x hx
    simp only [hasKey, List.any_eq_false] at h
    simpa using h x hx
  rw [hnone]
  rfl

theorem processNodes_entries (cfg : Config) (harity : 0 ≤ cfg.arity) :
    ∀ (cands : List (Int × List Char)) (acc defs : Defs),
      processNodes cfg cands acc = Except.ok defs →
      (∀ e ∈ acc, e.2.index = e.1 ∧ e.2.inputs.length = cfg.arity.toNat ∧
        cfg.startIndex ≤ e.1 ∧ e.1 ≤ cfg.startIndex + cfg.rows * cfg.cols - 1) →
      ∀ e ∈ defs, e.2.index = e.1 ∧ e.2.inputs.length = cfg.arity.toNat ∧
        cfg.startIndex ≤ e.1 ∧ e.1 ≤ cfg.startIndex + cfg.rows * cfg.cols - 1 := by
  intro cands
  induction cands with
  | nil =>
    intro acc defs h hacc
    unfold processNodes at h
    injection h with h
    subst h
    exact hacc
  | cons hd tl ih =>
    intro acc defs h hacc
    obtain ⟨idx, content⟩ := hd
    unfold processNodes at h
    split at h
    · simp at h
    · rename_i hrange
      split at h
      · simp at h
      · cases htn : toNumbers ((splitComma content).map charTrim) with
        | none => simp only [htn] at h; simp at h
        | some parts =>
          simp only [htn] at h
          split at h
          · simp at h
          · rename_i hlen
            refine ih _ _ h ?_
            intro e he
            rcases List.mem_append.mp he with he | he
            · exact hacc e he
            · have he' : e = (idx, (⟨idx, parts.getD cfg.arity.toNat 0,
                  parts.take cfg.arity.toNat⟩ : NodeDef)) := by simpa using he
              subst he'
              push_neg at hrange
              push_neg at hlen
              refine ⟨rfl, ?_, hrange.1, hrange.2⟩
              simp only [List.length_take]
              omega

theorem processNodes_lookup (cfg : Config) :
    ∀ (cands : List (Int × List Char)) (acc defs : Defs),
      processNodes cfg cands acc = Except.ok defs →
      ∀ idx content, (idx, content) ∈ cands →
      ∀ parts, toNumbers ((splitComma content).map charTrim) = some parts →
        (parts.length : Int) = cfg.arity + 1 ∧
        lookupDef defs idx =
          some ⟨idx, parts.getD cfg.arity.toNat 0, parts.take cfg.arity.toNat⟩ := by
  intro cands
  induction cands with
  | nil =>
    intro acc defs _ idx content hmem
    exact absurd hmem (by simp)
  | cons hd tl ih =>
    intro acc defs h idx content hmem parts hparts
    obtain ⟨idx0, content0⟩ := hd
    unfold processNodes at h
    split at h
    · simp at h
    · rename_i hrange
      split at h
      · simp at h
      · rename_i hdup
        cases htn : toNumbers ((splitComma content0).map charTrim) with
        | none => simp only [htn] at h; simp at h
        | some parts0 =>
          simp only [htn] at h
          split at h
          · simp at h
          · rename_i hlen0
            rcases List.mem_cons.mp hmem with heq | hmem'
            · injection heq with h1 h2
              subst h1
              subst h2
              rw [hparts] at htn
              injection htn with htn
              subst htn
              push_neg at hlen0
              refine ⟨hlen0, ?_⟩
              obtain ⟨ext, hext⟩ := processNodes_prefix cfg _ _ _ h
              rw [hext, List.append_assoc,
                lookupDef_append_left (Bool.not_eq_true _ ▸ eq_false_of_ne_true hdup)]
              simp [lookupDef]
            · exact ih _ _ h idx content hmem' parts hparts

theorem checkOutputs_none (cfg : Config) (defs : Defs) :
    ∀ outs : List Int, checkOutputs cfg defs outs = none →
      ∀ o ∈ outs, (0 ≤ o ∧ o < cfg.inputs) ∨ (cfg.startIndex ≤ o ∧ hasKey defs o = true) := by
  intro outs
  induction outs with
  | nil => intro _ o ho; exact absurd ho (by simp)
  | cons hd tl ih =>
    intro h o ho
    unfold checkOutputs at h
    split at h
    · rename_i hvalid
      rcases List.mem_cons.mp ho with heq | hmem
      · subst heq; exact hvalid
      · exact ih h o hmem
    · simp at h

theorem parseOutputs_ok_inv {cfg : Config} {defs : Defs} {cs : List Char} {outs : List Int}
    (h : parseOutputs cfg defs cs = Except.ok outs) :
    (outs.length : Int) = cfg.outputs ∧ checkOutputs cfg defs outs = none := by
  unfold parseOutputs at h
  cases hg : findOutputGroups cs with
  | none => simp only [hg] at h; simp at h
  | some outs0 =>
    simp only [hg] at h
    split at h
    · simp at h
    · rename_i hlen
      cases hco : checkOutputs cfg defs outs0 with
      | some e => simp only [hco] at h; simp at h
      | none =>
        simp only [hco] at h
        injection h with h
        subst h
        exact ⟨not_ne_iff.mp hlen, hco⟩

/-! ## Claim C3 — configuration parameter count -/

/-- C3, counterexample: the claim says a `{...}` block with 5 tokens makes
the whole parse fail; in the code a 5-token block parses successfully
(`lback`/`funcSetSize` are left undefined). -/
theorem C3_counterexample :
    (parseCGPString fiveParamStr).isOk = true := by decide

/-- C3, amended: `parseCGPString` requires the `{...}` block to contain at
least 5 numeric tokens; with fewer it fails with an error reporting the
count found ("Config needs >= 5 params (in,out,rows,cols,arity), found
n."); 5- and 6-token blocks are accepted with `lback`/`funcSetSize`
undefined. -/
theorem C3_amended (s : String) (content : List Char) (ps : List Int)
    (hc : findConfigContent (stripWS s.data) = some content)
    (hn : toNumbers ((splitComma content).map charTrim) = some ps)
    (hlen : ps.length < 5) :
    parseCGPString s = ParseResult.error (configCountError ps.length) := by
  have hcfg : parseConfig (stripWS s.data) = Except.error (configCountError ps.length) := by
    unfold parseConfig
    simp only [hc, hn]
    rw [if_pos hlen]
  unfold parseCGPString parseStripped
  simp only [hcfg]

/-- Witness for C3 at the 3-token block `"{1,2,3}(0)"`. -/
theorem C3_witness :
    parseCGPString threeParamStr = ParseResult.error (configCountError 3) :=
  C3_amended threeParamStr threeParamContent [1, 2, 3] (by decide) (by decide) (by decide)

/-! ## Claim C2 — connection validity -/

/-- C2, counterexample: the string
`"{2,1,1,2,2,2,4}([2]3,1,0)([3]0,1,1)(3)"` parses successfully although
node 2 references node 3, which is neither a primary-input index
(`0 ≤ 3 < 2` fails) nor a backward node reference (`2 ≤ 3 < 2` fails) —
the parser performs no `InvalidConnection` check. -/
theorem C2_counterexample :
    (parseCGPString forwardRefStr).defsOf =
      some [(2, ⟨2, 0, [3, 1]⟩), (3, ⟨3, 1, [0, 1]⟩)] ∧
    ¬((0 ≤ (3 : Int) ∧ (3 : Int) < 2) ∨ ((2 : Int) ≤ 3 ∧ (3 : Int) < 2)) :=
  ⟨by decide, by decide⟩

/-- C2, amended: for every successful parse, every recorded node stores its
own index and exactly `arity` input references; the references themselves
are recorded without any range or ordering validation (forward and self
references are accepted). -/
theorem C2_amended (s : String) (p : ParseOk)
    (h : parseCGPString s = ParseResult.ok p) :
    ∀ e ∈ p.nodeDefinitions, e.2.index = e.1 ∧ e.2.inputs.length = p.config.arity.toNat := by
  obtain ⟨hc, hn, _⟩ := parse_ok_inv h
  obtain ⟨hsi, hin, hout, hrows, hcols, har⟩ := parseConfig_ok_facts hc
  unfold parseNodes at hn
  have hent := processNodes_entries p.config (by omega) _ _ _ hn
    (by intro e he; exact absurd he (by simp))
  intro e he
  exact ⟨(hent e he).1, (hent e he).2.1⟩

/-- Witness for C2 at the spec's scenario-1 string. -/
theorem C2_witness :
    ((⟨2, 0, [0, 1]⟩ : NodeDef).index = 2 ∧
      (⟨2, 0, [0, 1]⟩ : NodeDef).inputs.length = goodParse.config.arity.toNat) :=
  C2_amended goodStr goodParse (by decide)
    (2, ⟨2, 0, [0, 1]⟩) (by decide)

/-! ## Claim C4 — lookback constraint -/

/-- C4, counterexample: `"{2,1,2,3,2,1,4}([2]0,1,0)([6]2,2,0)(6)"` parses
successfully although node 6 (column 2) references node 2 (column 0) at
column distance 2 with `lback = 1` — the parser performs no
`LbackViolation` check and no column-distance invariant holds for
successful parses. -/
theorem C4_counterexample :
    parseCGPString lbackViolStr = ParseResult.ok lbackParse ∧
    lbackParse.config.lback = some 1 ∧
    nodeColumn lbackParse.config 6 - nodeColumn lbackParse.config 2 > 1 :=
  ⟨by decide, by decide, by decide⟩

/-- C4, amended: the parser validates only the grid-range bound on node
indices (`startIndex ≤ n ≤ startIndex + rows*cols - 1`); it performs no
column-distance (lookback) validation, so a successful parse may contain a
reference whose column distance exceeds `lback`. -/
theorem C4_amended (s : String) (p : ParseOk)
    (h : parseCGPString s = ParseResult.ok p) :
    ∀ e ∈ p.nodeDefinitions,
      p.config.startIndex ≤ e.1 ∧
        e.1 ≤ p.config.startIndex + p.config.rows * p.config.cols - 1 := by
  obtain ⟨hc, hn, _⟩ := parse_ok_inv h
  obtain ⟨hsi, hin, hout, hrows, hcols, har⟩ := parseConfig_ok_facts hc
  unfold parseNodes at hn
  have hent := processNodes_entries p.config (by omega) _ _ _ hn
    (by intro e he; exact absurd he (by simp))
  intro e he
  exact ⟨(hent e he).2.2.1, (hent e he).2.2.2⟩

/-- Witness for C4 at the lookback-violating parse: node 6 still lies in
the grid range. -/
theorem C4_witness :
    lbackParse.config.startIndex ≤ 6 ∧
      (6 : Int) ≤ lbackParse.config.startIndex + lbackParse.config.rows * lbackParse.config.cols - 1 :=
  C4_amended lbackViolStr lbackParse (by decide)
    (6, ⟨6, 0, [2, 2]⟩) (by decide)

/-! ## Claim C5 — function-identifier range -/

/-- C5, counterexample: `"{2,1,1,2,2,2,4}([2]0,1,99)([3]0,1,1)(3)"` parses
successfully although node 2 records `funcId = 99` with `funcSetSize = 4`
— the parser performs no `FunctionIdOutOfRange` check. -/
theorem C5_counterexample :
    parseCGPString funcIdStr = ParseResult.ok funcIdParse ∧
    (lookupDef funcIdParse.nodeDefinitions 2).map NodeDef.funcId = some 99 ∧
    funcIdParse.config.funcSetSize = some 4 ∧ ¬((99 : Int) < 4) :=
  ⟨by decide, by decide, by decide, by decide⟩

/-- C5, amended: for every node definition matched by the scan, the content
splits into exactly `arity + 1` numeric values and the recorded node takes
the last value as its `funcId` and the first `arity` values as its inputs;
no range check is applied to the `funcId`. -/
theorem C5_amended (s : String) (p : ParseOk) (idx : Int) (content : List Char)
    (parts : List Int) (h : parseCGPString s = ParseResult.ok p)
    (hmem : (idx, content) ∈ scanNodes (stripWS s.data))
    (hparts : toNumbers ((splitComma content).map charTrim) = some parts) :
    (parts.length : Int) = p.config.arity + 1 ∧
      lookupDef p.nodeDefinitions idx =
        some ⟨idx, parts.getD p.config.arity.toNat 0, parts.take p.config.arity.toNat⟩ := by
  obtain ⟨hc, hn, _⟩ := parse_ok_inv h
  unfold parseNodes at hn
  exact processNodes_lookup p.config _ _ _ hn idx content hmem parts hparts

/-- Witness for C5 at the `funcId = 99` node: the last content value 99 is
recorded as the `funcId`. -/
theorem C5_witness :
    (([0, 1, 99] : List Int).length : Int) = funcIdParse.config.arity + 1 ∧
      lookupDef funcIdParse.nodeDefinitions 2 =
        some ⟨2, ([0, 1, 99] : List Int).getD funcIdParse.config.arity.toNat 0,
          ([0, 1, 99] : List Int).take funcIdParse.config.arity.toNat⟩ :=
  C5_amended funcIdStr funcIdParse 2 funcIdContent
    [0, 1, 99] (by decide) (by decide) (by decide)

/-! ## Claim C6 — zero node definitions -/

/-- C6, counterexample: `"{2,1,1,2,2,2,4}(1)"` records zero nodes and the
parse nevertheless succeeds — there is no `NoNodeDefinitions` check, so
`nodeDefinitions.size ≥ 1` does not hold for every successful parse. -/
theorem C6_counterexample :
    (parseCGPString noNodesStr).isOk = true ∧
    (parseCGPString noNodesStr).defsOf = some [] :=
  ⟨by decide, by decide⟩

/-- C6, amended: a scan that records zero node definitions is not an error:
when every output reference is a primary input the parse succeeds with an
empty node map. -/
theorem C6_amended :
    parseCGPString noNodesStr =
      ParseResult.ok ⟨⟨2, 1, 1, 2, 2, some 2, some 4, 2⟩, [], [1]⟩ := by decide

/-! ## Claim C9 — input-name directives -/

/-- Every `#%i` line contributes its pieces in directive order exactly when
the reversed-index heuristic does not fire on it. -/
theorem extractInputNames_eq_spec :
    ∀ lines : List (List Char),
      (∀ l ∈ lines, isInputDirective l = true →
        isReversedNames (directiveNames l) = false) →
      extractInputNames lines = specInputNames lines := by
  intro lines
  induction lines with
  | nil => intro _; rfl
  | cons l ls ih =>
    intro h
    unfold extractInputNames specInputNames
    by_cases hi : isInputDirective l = true
    · rw [if_pos hi, if_pos hi, h l (by simp) hi]
      rw [if_neg (by decide)]
      rw [ih (fun l' hl' => h l' (List.mem_cons_of_mem _ hl'))]
    · rw [if_neg hi, if_neg hi]
      by_cases hh : isHashLine l = true
      · rw [if_pos hh, if_pos hh, ih (fun l' hl' => h l' (List.mem_cons_of_mem _ hl'))]
      · rw [if_neg hh, if_neg hh]

/-- C9, counterexample: on the raw input `"#%i i1,i0\nX"` the code detects
descending `i`-indices and appends the names reversed (`["i0","i1"]`),
not in the order they appear in the directive (`["i1","i0"]`). -/
theorem C9_counterexample :
    inputNamesOf revNamesStr = ["i0", "i1"] ∧
    claimedInputNamesOf revNamesStr = ["i1", "i0"] ∧
    inputNamesOf revNamesStr ≠ claimedInputNamesOf revNamesStr :=
  ⟨by decide, by decide, by decide⟩

/-- C9, amended: each `#%i` line (before the data line) contributes its
comma-separated, trimmed pieces appended in directive order, **unless** the
reversed-index heuristic fires (more than one name, some name containing
`i` followed by a digit, and the first name's leading number exceeding the
last name's), in which case the pieces are appended in reverse. -/
theorem C9_amended (raw : String)
    (h : ∀ l ∈ keptLines raw.data, isInputDirective l = true →
      isReversedNames (directiveNames l) = false) :
    inputNamesOf raw = claimedInputNamesOf raw := by
  unfold inputNamesOf claimedInputNamesOf
  rw [extractInputNames_eq_spec (keptLines raw.data) h]

/-- Witness for C9 on a directive whose names do not trigger the
heuristic. -/
theorem C9_witness :
    inputNamesOf plainNamesStr = claimedInputNamesOf plainNamesStr :=
  C9_amended plainNamesStr (by decide)

/-! ## Worklist lemmas for `findActiveNodes` -/

theorem fanLoop_nil (fuel : Nat) (si ic : Int) (defs : Defs) (active visited : List Int) :
    fanLoop fuel si ic defs active visited [] = some active := by
  cases fuel <;> rfl

theorem unvisited_cons (defs : Defs) (v : List Int) (r : Int)
    (hr : hasKey defs r = true) (hv : r ∉ v) :
    unvisitedCount defs v = unvisitedCount defs (r :: v) + 1 := by
  unfold unvisitedCount
  have hrk : r ∈ (defs.map Prod.fst).toFinset := by
    unfold hasKey at hr
    rw [List.any_eq_true] at hr
    obtain ⟨e, he, hek⟩ := hr
    simp only [List.mem_toFinset, List.mem_map]
    exact ⟨e, he, by simpa using hek⟩
  have hmem : r ∈ ((defs.map Prod.fst).toFinset).filter (fun k => k ∉ v) := by
    simp only [Finset.mem_filter]
    exact ⟨hrk, hv⟩
  have hfe : ((defs.map Prod.fst).toFinset).filter (fun k => k ∉ (r :: v)) =
      (((defs.map Prod.fst).toFinset).filter (fun k => k ∉ v)).erase r := by
    ext k
    simp only [Finset.mem_filter, Finset.mem_erase, List.mem_cons]
    constructor
    · rintro ⟨h1, h2⟩
      push_neg at h2
      exact ⟨h2.1, h1, h2.2⟩
    · rintro ⟨h1, h2, h3⟩
      refine ⟨h2, ?_⟩
      push_neg
      exact ⟨h1, h3⟩
  rw [hfe, Finset.card_erase_of_mem hmem]
  have hpos := Finset.card_pos.mpr ⟨r, hmem⟩
  omega

theorem pushInputs_measure (ic : Int) (defs : Defs) :
    ∀ (l v s : List Int),
      (pushInputs ic defs l v s).2.length + unvisitedCount defs (pushInputs ic defs l v s).1 ≤
        s.length + unvisitedCount defs v := by
  intro l
  induction l with
  | nil => intro v s; simp [pushInputs]
  | cons r rest ih =>
    intro v s
    unfold pushInputs
    split
    · rename_i hcond
      have h1 := ih (r :: v) (r :: s)
      have h2 := unvisited_cons defs v r hcond.2.1 hcond.2.2
      simp only [List.length_cons] at h1
      omega
    · exact ih v s

theorem fanLoop_some (si ic : Int) (defs : Defs) :
    ∀ (fuel : Nat) (active visited stack : List Int),
      stack.length + unvisitedCount defs visited ≤ fuel →
      ∃ A, fanLoop fuel si ic defs active visited stack = some A := by
  intro fuel
  induction fuel with
  | zero =>
    intro active visited stack h
    have hs : stack = [] := List.length_eq_zero.mp (by omega)
    subst hs
    exact ⟨active, fanLoop_nil 0 si ic defs active visited⟩
  | succ n ih =>
    intro active visited stack h
    cases stack with
    | nil => exact ⟨active, fanLoop_nil _ si ic defs active visited⟩
    | cons cur rest =>
      simp only [fanLoop]
      cases hld : lookupDef defs cur with
      | none =>
        apply ih
        simp only [List.length_cons] at h
        omega
      | some nd =>
        have hp := pushInputs_measure ic defs nd.inputs visited rest
        apply ih
        simp only [List.length_cons] at h
        omega

theorem pushInputs_stack_mem (ic : Int) (defs : Defs) :
    ∀ (l v s : List Int) (x : Int), x ∈ s → x ∈ (pushInputs ic defs l v s).2 := by
  intro l
  induction l with
  | nil => intro v s x hx; exact hx
  | cons r rest ih =>
    intro v s x hx
    unfold pushInputs
    split
    · exact ih _ _ x (List.mem_cons_of_mem _ hx)
    · exact ih _ _ x hx

theorem fanLoop_mono (si ic : Int) (defs : Defs) :
    ∀ (fuel : Nat) (active visited stack A : List Int),
      fanLoop fuel si ic defs active visited stack = some A →
      ∀ a ∈ active, a ∈ A := by
  intro fuel
  induction fuel with
  | zero =>
    intro active visited stack A h
    cases stack with
    | nil =>
      rw [fanLoop_nil] at h
      injection h with h
      subst h
      exact fun a ha => ha
    | cons cur rest => exact absurd h (by simp [fanLoop])
  | succ n ih =>
    intro active visited stack A h
    cases stack with
    | nil =>
      rw [fanLoop_nil] at h
      injection h with h
      subst h
      exact fun a ha => ha
    | cons cur rest =>
      simp only [fanLoop] at h
      intro a ha
      cases hld : lookupDef defs cur with
      | none =>
        simp only [hld] at h
        refine ih _ _ _ _ h a ?_
        split
        · exact List.mem_cons_of_mem _ ha
        · exact ha
      | some nd =>
        simp only [hld] at h
        refine ih _ _ _ _ h a ?_
        split
        · exact List.mem_cons_of_mem _ ha
        · exact ha

theorem fanLoop_subset (si ic : Int) (defs : Defs) :
    ∀ (fuel : Nat) (active visited stack A : List Int),
      fanLoop fuel si ic defs active visited stack = some A →
      (∀ a ∈ active, hasKey defs a = true) → ∀ a ∈ A, hasKey defs a = true := by
  intro fuel
  induction fuel with
  | zero =>
    intro active visited stack A h hacc
    cases stack with
    | nil =>
      rw [fanLoop_nil] at h
      injection h with h
      subst h
      exact hacc
    | cons cur rest => exact absurd h (by simp [fanLoop])
  | succ n ih =>
    intro active visited stack A h hacc
    cases stack with
    | nil =>
      rw [fanLoop_nil] at h
      injection h with h
      subst h
      exact hacc
    | cons cur rest =>
      simp only [fanLoop] at h
      have hacc' : ∀ a ∈ (if si ≤ cur ∧ hasKey defs cur = true then cur :: active else active),
          hasKey defs a = true := by
        split
        · rename_i hcond
          intro a ha
          rcases List.mem_cons.mp ha with rfl | ha
          · exact hcond.2
          · exact hacc a ha
        · exact hacc
      cases hld : lookupDef defs cur with
      | none =>
        simp only [hld] at h
        exact ih _ _ _ _ h hacc'
      | some nd =>
        simp only [hld] at h
        exact ih _ _ _ _ h hacc'

theorem fanLoop_complete (si ic : Int) (defs : Defs) :
    ∀ (fuel : Nat) (active visited stack A : List Int),
      fanLoop fuel si ic defs active visited stack = some A →
      ∀ x ∈ stack, si ≤ x → hasKey defs x = true → x ∈ A := by
  intro fuel
  induction fuel with
  | zero =>
    intro active visited stack A h x hx
    cases stack with
    | nil => exact absurd hx (by simp)
    | cons cur rest => exact absurd h (by simp [fanLoop])
  | succ n ih =>
    intro active visited stack A h x hx hsix hkx
    cases stack with
    | nil => exact absurd hx (by simp)
    | cons cur rest =>
      simp only [fanLoop] at h
      rcases List.mem_cons.mp hx with rfl | hxr
      · rw [if_pos ⟨hsix, hkx⟩] at h
        cases hld : lookupDef defs x with
        | none =>
          simp only [hld] at h
          exact fanLoop_mono si ic defs _ _ _ _ _ h x (List.mem_cons_self _ _)
        | some nd =>
          simp only [hld] at h
          exact fanLoop_mono si ic defs _ _ _ _ _ h x (List.mem_cons_self _ _)
      · cases hld : lookupDef defs cur with
        | none =>
          simp only [hld] at h
          exact ih _ _ _ _ h x hxr hsix hkx
        | some nd =>
          simp only [hld] at h
          exact ih _ _ _ _ h x (pushInputs_stack_mem ic defs nd.inputs visited rest x hxr)
            hsix hkx

theorem seedOutputs_stack_mem (si : Int) :
    ∀ (outs v s : List Int) (x : Int), x ∈ s → x ∈ (seedOutputs si outs v s).2 := by
  intro outs
  induction outs with
  | nil => intro v s x hx; exact hx
  | cons o rest ih =>
    intro v s x hx
    unfold seedOutputs
    split
    · exact ih _ _ x (List.mem_cons_of_mem _ hx)
    · exact ih _ _ x hx

theorem seedOutputs_complete (si : Int) :
    ∀ (outs v s : List Int), (∀ y ∈ v, y ∈ s) →
      ∀ o ∈ outs, si ≤ o → o ∈ (seedOutputs si outs v s).2 := by
  intro outs
  induction outs with
  | nil =>
    intro v s _ o ho
    exact absurd ho (by simp)
  | cons o rest ih =>
    intro v s hvs o' ho' hsio'
    unfold seedOutputs
    by_cases hc : si ≤ o ∧ o ∉ v
    · rw [if_pos hc]
      have hvs' : ∀ y ∈ o :: v, y ∈ o :: s := by
        intro y hy
        rcases List.mem_cons.mp hy with rfl | hy
        · exact List.mem_cons_self _ _
        · exact List.mem_cons_of_mem _ (hvs y hy)
      rcases List.mem_cons.mp ho' with rfl | ho''
      · exact seedOutputs_stack_mem si rest (o' :: v) (o' :: s) o' (List.mem_cons_self _ _)
      · exact ih (o :: v) (o :: s) hvs' o' ho'' hsio'
    · rw [if_neg hc]
      rcases List.mem_cons.mp ho' with rfl | ho''
      · have hov : o' ∈ v := by
          by_contra hov
          exact hc ⟨hsio', hov⟩
        exact seedOutputs_stack_mem si rest v s o' (hvs o' hov)
      · exact ih v s hvs o' ho'' hsio'

theorem seedOutputs_noseed (si : Int) :
    ∀ (outs v s : List Int), (∀ o ∈ outs, ¬ si ≤ o) → seedOutputs si outs v s = (v, s) := by
  intro outs
  induction outs with
  | nil => intro v s _; rfl
  | cons o rest ih =>
    intro v s h
    unfold seedOutputs
    rw [if_neg (fun hc => h o (by simp) hc.1)]
    exact ih v s (fun o' ho' => h o' (List.mem_cons_of_mem _ ho'))

/-! ## Claim C10 — termination of the active-node analysis -/

/-- C10: `findActiveNodes` terminates for every finite node map and output
list — even with cyclic, self-referential or dangling references — because
the visited set lets each node enter the worklist at most once (every push
removes one key from the unvisited-key count, so the worklist measure
strictly decreases). -/
theorem C10_findActiveNodes_terminates (cfg : Config) (defs : Defs) (outs : List Int) :
    ∃ fuel A, findActiveNodes fuel cfg defs outs = some A := by
  by_cases h : outs = []
  · exact ⟨0, [], by simp [findActiveNodes, h]⟩
  · refine ⟨(seedOutputs cfg.startIndex outs [] []).2.length +
      unvisitedCount defs (seedOutputs cfg.startIndex outs [] []).1, ?_⟩
    simp only [findActiveNodes, if_neg h]
    exact fanLoop_some cfg.startIndex cfg.inputs defs _ [] _ _ (le_refl _)

/-! ## Claim C7 — the active-node set -/

/-- C7: for every successful parse and every completed run of
`findActiveNodes`, the result is a subset of the node-map keys, and it is
empty iff the output list is empty or every output reference is a
primary-input index (`< startIndex`). -/
theorem C7_activeNodes (s : String) (p : ParseOk) (fuel : Nat) (A : List Int)
    (h : parseCGPString s = ParseResult.ok p)
    (hA : findActiveNodes fuel p.config p.nodeDefinitions p.outputNodeIndices = some A) :
    (∀ a ∈ A, hasKey p.nodeDefinitions a = true) ∧
      (A = [] ↔ p.outputNodeIndices = [] ∨
        ∀ o ∈ p.outputNodeIndices, o < p.config.startIndex) := by
  obtain ⟨hc, hn, ho⟩ := parse_ok_inv h
  obtain ⟨hsi, hin, hout, hrows, hcols, har⟩ := parseConfig_ok_facts hc
  have hvalid := checkOutputs_none p.config p.nodeDefinitions p.outputNodeIndices
    (parseOutputs_ok_inv ho).2
  by_cases hempty : p.outputNodeIndices = []
  · simp only [findActiveNodes, if_pos hempty] at hA
    injection hA with hA
    subst hA
    constructor
    · intro a ha
      exact absurd ha (by simp)
    · simp [hempty]
  · simp only [findActiveNodes, if_neg hempty] at hA
    refine ⟨fanLoop_subset _ _ _ _ _ _ _ _ hA (fun a ha => absurd ha (by simp)), ?_, ?_⟩
    · intro hAe
      by_contra hcon
      push_neg at hcon
      obtain ⟨hne, o, hoo, hso⟩ := hcon
      rcases hvalid o hoo with ⟨_, holt⟩ | ⟨_, hk⟩
      · rw [hsi] at hso
        omega
      · have hseed := seedOutputs_complete p.config.startIndex p.outputNodeIndices [] []
          (by intro y hy; exact absurd hy (by simp)) o hoo hso
        have hoA := fanLoop_complete p.config.startIndex p.config.inputs p.nodeDefinitions
          _ _ _ _ _ hA o hseed hso hk
        rw [hAe] at hoA
        exact absurd hoA (by simp)
    · intro hdisj
      rcases hdisj with hdisj | hdisj
      · exact absurd hdisj hempty
      · rw [seedOutputs_noseed p.config.startIndex p.outputNodeIndices [] []
          (fun o hoo => not_le.mpr (hdisj o hoo))] at hA
        rw [fanLoop_nil] at hA
        injection hA with hA
        exact hA.symm

/-- Witness for C7: on the spec's scenario-1 parse the loop returns `[3]`,
and node 3 is indeed a key of the node map. -/
theorem C7_witness :
    hasKey goodParse.nodeDefinitions 3 = true :=
  (C7_activeNodes goodStr goodParse 10 [3]
    (by decide) (by decide)).1 3 (by decide)

/-! ## Lemmas about the delay calculator -/

theorem lookupDef_mem {defs : Defs} {k : Int} {nd : NodeDef}
    (h : lookupDef defs k = some nd) : (k, nd) ∈ defs := by
  unfold lookupDef at h
  cases hf : defs.find? (fun e => e.1 = k) with
  | none => rw [hf] at h; exact absurd h (by simp)
  | some e =>
    rw [hf] at h
    injection h with h
    have hmem := List.mem_of_find?_eq_some hf
    have hpe := List.find?_some hf
    have hek : e.1 = k := by simpa using hpe
    have : e = (k, nd) := by
      obtain ⟨e1, e2⟩ := e
      simp only at hek h
      rw [hek, h]
    rw [this] at hmem
    exact hmem

theorem lookupDef_hasKey {defs : Defs} {k : Int} {nd : NodeDef}
    (h : lookupDef defs k = some nd) : hasKey defs k = true := by
  unfold hasKey
  rw [List.any_eq_true]
  exact ⟨(k, nd), lookupDef_mem h, by simp⟩

theorem lookupDelay_append_not_mem (ext delays : DelayMap) (k : DelayKey)
    (h : ∀ e ∈ ext, e.1 ≠ k) : lookupDelay (ext ++ delays) k = lookupDelay delays k := by
  unfold lookupDelay
  rw [List.find?_append]
  have hnone : ext.find? (fun e => e.1 = k) = none := by
    rw [List.find?_eq_none]
    intro x hx
    simpa using h x hx
  rw [hnone]
  rfl

theorem lookupDelay_all_zero :
    ∀ (m : DelayMap), (∀ e ∈ m, e.2 = 0) → ∀ k : DelayKey, (∃ e ∈ m, e.1 = k) →
      lookupDelay m k = some 0 := by
  intro m
  induction m with
  | nil =>
    intro _ k hk
    obtain ⟨e, he, _⟩ := hk
    exact absurd he (by simp)
  | cons e0 rest ih =>
    intro hz k hk
    by_cases hek : e0.1 = k
    · have : lookupDelay (e0 :: rest) k = some e0.2 := by
        unfold lookupDelay
        rw [List.find?_cons_of_pos _ (by simpa using hek)]
        rfl
      rw [this, hz e0 (by simp)]
    · unfold lookupDelay
      rw [List.find?_cons_of_neg _ (by simpa using hek)]
      have : ∃ e ∈ rest, e.1 = k := by
        obtain ⟨e, he, hke⟩ := hk
        rcases List.mem_cons.mp he with rfl | he
        · exact absurd hke hek
        · exact ⟨e, he, hke⟩
      exact ih (fun e he => hz e (List.mem_cons_of_mem _ he)) k this

theorem initDelays_lookup (inputs : Int) (i : Int) (h0 : 0 ≤ i) (hlt : i < inputs) :
    lookupDelay (initDelays inputs) (Sum.inl i) = some 0 := by
  apply lookupDelay_all_zero
  · intro e he
    unfold initDelays at he
    rw [List.mem_map] at he
    obtain ⟨j, _, hj⟩ := he
    rw [← hj]
  · refine ⟨(Sum.inl i, 0), ?_, rfl⟩
    unfold initDelays
    have hmr : i.toNat ∈ List.range inputs.toNat := List.mem_range.mpr (by omega)
    have hmm := List.mem_map_of_mem
      (fun j : Nat => ((Sum.inl (j : Int) : DelayKey), (0 : Int))) hmr
    simp only [Int.toNat_of_nonneg h0] at hmm
    exact hmm

theorem inputDelaysAux_ext (defs : Defs) (g : Int → DelayMap → Option (Int × DelayMap))
    (ic : Int)
    (hg : ∀ r delays out, g r delays = some out →
      ∃ ext, out.2 = ext ++ delays ∧
        ∀ e ∈ ext, ∃ j, e.1 = Sum.inl j ∧ hasKey defs j = true) :
    ∀ (l : List Int) (delays : DelayMap) (out : List Int × DelayMap),
      inputDelaysAux g ic l delays = some out →
      ∃ ext, out.2 = ext ++ delays ∧
        ∀ e ∈ ext, ∃ j, e.1 = Sum.inl j ∧ hasKey defs j = true := by
  intro l
  induction l with
  | nil =>
    intro delays out h
    unfold inputDelaysAux at h
    injection h with h
    subst h
    exact ⟨[], rfl, by simp⟩
  | cons r rest ih =>
    intro delays out h
    unfold inputDelaysAux at h
    split at h
    · cases hrec : inputDelaysAux g ic rest delays with
      | none => simp only [hrec] at h; simp at h
      | some out1 =>
        obtain ⟨ds, d2⟩ := out1
        simp only [hrec] at h
        injection h with h
        subst h
        obtain ⟨ext, he, hp⟩ := ih delays (ds, d2) hrec
        exact ⟨ext, he, hp⟩
    · cases hg1 : g r delays with
      | none => simp only [hg1] at h; simp at h
      | some out1 =>
        obtain ⟨d, d2⟩ := out1
        simp only [hg1] at h
        cases hrec : inputDelaysAux g ic rest d2 with
        | none => simp only [hrec] at h; simp at h
        | some out2 =>
          obtain ⟨ds, d3⟩ := out2
          simp only [hrec] at h
          injection h with h
          subst h
          obtain ⟨ext1, he1, hp1⟩ := hg r delays (d, d2) hg1
          obtain ⟨ext2, he2, hp2⟩ := ih d2 (ds, d3) hrec
          refine ⟨ext2 ++ ext1, ?_, ?_⟩
          · simp only at he1 he2
            rw [he2, he1, List.append_assoc]
          · intro e he
            rcases List.mem_append.mp he with he | he
            · exact hp2 e he
            · exact hp1 e he

theorem getNodeDelay_ext (defs : Defs) (ic : Int) :
    ∀ (fuel : Nat) (nodeId : Int) (delays : DelayMap) (out : Int × DelayMap),
      getNodeDelay fuel nodeId defs delays ic = some out →
      ∃ ext, out.2 = ext ++ delays ∧
        ∀ e ∈ ext, ∃ j, e.1 = Sum.inl j ∧ hasKey defs j = true := by
  intro fuel
  induction fuel with
  | zero =>
    intro nodeId delays out h
    exact absurd h (by simp [getNodeDelay])
  | succ n ih =>
    intro nodeId delays out h
    unfold getNodeDelay at h
    cases hl : lookupDelay delays (Sum.inl nodeId) with
    | some d =>
      simp only [hl] at h
      injection h with h
      subst h
      exact ⟨[], rfl, by simp⟩
    | none =>
      simp only [hl] at h
      cases hld : lookupDef defs nodeId with
      | none =>
        simp only [hld] at h
        injection h with h
        subst h
        exact ⟨[], rfl, by simp⟩
      | some nd =>
        simp only [hld] at h
        cases hrec : inputDelaysAux (fun r m => getNodeDelay n r defs m ic) ic
            nd.inputs delays with
        | none => simp only [hrec] at h; simp at h
        | some out1 =>
          obtain ⟨ds, d2⟩ := out1
          simp only [hrec] at h
          injection h with h
          subst h
          obtain ⟨ext1, he1, hp1⟩ := inputDelaysAux_ext defs _ ic
            (fun r delays' out' hgo => ih r delays' out' hgo) nd.inputs delays (ds, d2) hrec
          refine ⟨(Sum.inl nodeId, maxOfList ds) :: ext1, ?_, ?_⟩
          · simp only at he1
            simp only [insertDelay, he1, List.cons_append]
          · intro e he
            rcases List.mem_cons.mp he with rfl | he
            · exact ⟨nodeId, rfl, lookupDef_hasKey hld⟩
            · exact hp1 e he

theorem runNodeLoop_ext (defs : Defs) (ic : Int) (fuel : Nat) :
    ∀ (l : List (Int × NodeDef)) (delays m : DelayMap),
      runNodeLoop fuel defs ic l delays = some m →
      ∃ ext, m = ext ++ delays ∧
        ∀ e ∈ ext, ∃ j, e.1 = Sum.inl j ∧ hasKey defs j = true := by
  intro l
  induction l with
  | nil =>
    intro delays m h
    unfold runNodeLoop at h
    injection h with h
    subst h
    exact ⟨[], rfl, by simp⟩
  | cons e0 rest ih =>
    intro delays m h
    obtain ⟨k, nd⟩ := e0
    unfold runNodeLoop at h
    split at h
    · exact ih delays m h
    · cases hg : getNodeDelay fuel k defs delays ic with
      | none => simp only [hg] at h; simp at h
      | some out1 =>
        obtain ⟨d, d2⟩ := out1
        simp only [hg] at h
        obtain ⟨ext1, he1, hp1⟩ := getNodeDelay_ext defs ic fuel k delays (d, d2) hg
        obtain ⟨ext2, he2, hp2⟩ := ih d2 m h
        simp only at he1
        refine ⟨ext2 ++ ext1, ?_, ?_⟩
        · rw [he2, he1, List.append_assoc]
        · intro e he
          rcases List.mem_append.mp he with he | he
          · exact hp2 e he
          · exact hp1 e he

theorem runOutputLoop_inl :
    ∀ (outs : List Int) (pos : Nat) (delays : DelayMap) (j : Int),
      lookupDelay (runOutputLoop pos outs delays) (Sum.inl j) =
        lookupDelay delays (Sum.inl j) := by
  intro outs
  induction outs with
  | nil => intro pos delays j; rfl
  | cons s0 rest ih =>
    intro pos delays j
    unfold runOutputLoop
    rw [ih]
    unfold lookupDelay insertDelay
    rw [List.find?_cons_of_neg _ (by simp)]

theorem runOutputLoop_untouched :
    ∀ (outs : List Int) (pos : Nat) (delays : DelayMap) (q : Nat), q < pos →
      lookupDelay (runOutputLoop pos outs delays) (Sum.inr q) =
        lookupDelay delays (Sum.inr q) := by
  intro outs
  induction outs with
  | nil => intro pos delays q _; rfl
  | cons s0 rest ih =>
    intro pos delays q hq
    unfold runOutputLoop
    rw [ih (pos + 1) _ q (by omega)]
    unfold lookupDelay insertDelay
    rw [List.find?_cons_of_neg _ (by simp; omega)]

theorem runOutputLoop_spec :
    ∀ (outs : List Int) (pos : Nat) (delays : DelayMap) (j : Nat) (src : Int),
      outs.get? j = some src →
      lookupDelay (runOutputLoop pos outs delays) (Sum.inr (pos + j)) =
        some ((lookupDelay delays (Sum.inl src)).getD 0 + 1) := by
  intro outs
  induction outs with
  | nil =>
    intro pos delays j src h
    simp at h
  | cons s0 rest ih =>
    intro pos delays j src h
    cases j with
    | zero =>
      have hs : s0 = src := by simpa using h
      subst hs
      unfold runOutputLoop
      simp only [Nat.add_zero]
      rw [runOutputLoop_untouched rest (pos + 1) _ pos (by omega)]
      unfold lookupDelay insertDelay
      rw [List.find?_cons_of_pos _ (by simp)]
      rfl
    | succ j' =>
      have h' : rest.get? j' = some src := by simpa using h
      unfold runOutputLoop
      have := ih (pos + 1) (insertDelay delays (Sum.inr pos)
        ((lookupDelay delays (Sum.inl s0)).getD 0 + 1)) j' src h'
      rw [show pos + (j' + 1) = (pos + 1) + j' by omega, this]
      have hpres : lookupDelay (insertDelay delays (Sum.inr pos)
          ((lookupDelay delays (Sum.inl s0)).getD 0 + 1)) (Sum.inl src) =
          lookupDelay delays (Sum.inl src) := by
        unfold lookupDelay insertDelay
        rw [List.find?_cons_of_neg _ (by simp)]
      rw [hpres]

theorem le_foldr_max : ∀ (l : List Nat) (x : Nat), x ∈ l → x ≤ l.foldr max 0 := by
  intro l
  induction l with
  | nil => intro x hx; exact absurd hx (by simp)
  | cons y ys ih =>
    intro x hx
    rcases List.mem_cons.mp hx with rfl | hx
    · exact le_max_left _ _
    · exact le_trans (ih x hx) (le_max_right _ _)

theorem maxKeyNat_bound (defs : Defs) : ∀ e ∈ defs, e.1.toNat < maxKeyNat defs + 1 := by
  intro e he
  unfold maxKeyNat
  have hmem : e.1.toNat ∈ defs.map (fun e => e.1.toNat) := List.mem_map_of_mem _ he
  have := le_foldr_max _ _ hmem
  omega

theorem inputDelaysAux_total (g : Int → DelayMap → Option (Int × DelayMap)) (ic : Int) :
    ∀ (l : List Int), (∀ r ∈ l, ic ≤ r → ∀ delays, ∃ out, g r delays = some out) →
      ∀ delays, ∃ out, inputDelaysAux g ic l delays = some out := by
  intro l
  induction l with
  | nil => intro _ delays; exact ⟨([], delays), rfl⟩
  | cons r rest ih =>
    intro hl delays
    unfold inputDelaysAux
    by_cases hr : r < ic
    · rw [if_pos hr]
      obtain ⟨out1, hout1⟩ := ih (fun r' hr' => hl r' (List.mem_cons_of_mem _ hr')) delays
      obtain ⟨ds, d2⟩ := out1
      simp only [hout1]
      exact ⟨(0 :: ds, d2), rfl⟩
    · rw [if_neg hr]
      obtain ⟨out1, hout1⟩ := hl r (by simp) (le_of_not_lt hr) delays
      obtain ⟨d, d2⟩ := out1
      simp only [hout1]
      obtain ⟨out2, hout2⟩ := ih (fun r' hr' => hl r' (List.mem_cons_of_mem _ hr')) d2
      obtain ⟨ds, d3⟩ := out2
      simp only [hout2]
      exact ⟨((d + 1) :: ds, d3), rfl⟩

theorem getNodeDelay_total (defs : Defs) (ic : Int) (hic : 0 ≤ ic)
    (hrefs : ∀ e ∈ defs, ∀ r ∈ e.2.inputs, ic ≤ r → r < e.1) :
    ∀ (fuel : Nat) (nodeId : Int), nodeId.toNat < fuel →
      ∀ delays, ∃ out, getNodeDelay fuel nodeId defs delays ic = some out := by
  intro fuel
  induction fuel with
  | zero =>
    intro nodeId h
    exact absurd h (by omega)
  | succ n ih =>
    intro nodeId hfuel delays
    cases hl : lookupDelay delays (Sum.inl nodeId) with
    | some d =>
      refine ⟨(d, delays), ?_⟩
      unfold getNodeDelay
      simp only [hl]
    | none =>
      cases hld : lookupDef defs nodeId with
      | none =>
        refine ⟨(0, delays), ?_⟩
        unfold getNodeDelay
        simp only [hl, hld]
      | some nd =>
        have hmem := lookupDef_mem hld
        obtain ⟨out1, hout1⟩ := inputDelaysAux_total
          (fun r m => getNodeDelay n r defs m ic) ic nd.inputs
          (by
            intro r hr hicr delays'
            have hrlt : r < nodeId := hrefs (nodeId, nd) hmem r hr hicr
            have hrn : r.toNat < n := by omega
            exact ih r hrn delays')
          delays
        obtain ⟨ds, d2⟩ := out1
        refine ⟨(maxOfList ds, insertDelay d2 (Sum.inl nodeId) (maxOfList ds)), ?_⟩
        unfold getNodeDelay
        simp only [hl, hld, hout1]

theorem runNodeLoop_total (defs : Defs) (ic : Int) (hic : 0 ≤ ic)
    (hrefs : ∀ e ∈ defs, ∀ r ∈ e.2.inputs, ic ≤ r → r < e.1)
    (fuel : Nat) (hfuel : ∀ e ∈ defs, e.1.toNat < fuel) :
    ∀ (l : List (Int × NodeDef)), (∀ e ∈ l, e ∈ defs) →
      ∀ delays, ∃ m, runNodeLoop fuel defs ic l delays = some m := by
  intro l
  induction l with
  | nil => intro _ delays; exact ⟨delays, rfl⟩
  | cons e0 rest ih =>
    intro hl delays
    obtain ⟨k, nd⟩ := e0
    unfold runNodeLoop
    by_cases hk : k < ic
    · rw [if_pos hk]
      exact ih (fun e he => hl e (List.mem_cons_of_mem _ he)) delays
    · rw [if_neg hk]
      obtain ⟨out, hout⟩ := getNodeDelay_total defs ic hic hrefs fuel k
        (hfuel (k, nd) (hl _ (by simp))) delays
      obtain ⟨d, d2⟩ := out
      simp only [hout]
      exact ih (fun e he => hl e (List.mem_cons_of_mem _ he)) d2

/-! ## Claim C8 — the delay map -/

/-- C8: for every successful parse and every completed run of
`calculateNodeDelays`, the delay map assigns 0 to every primary-input
index `0..inputs-1`; for each output position `i` with source `s` it
assigns `delay("output-i") = delay(s) + 1` (with a missing source treated
as 0 by the code); and that value is 1 when `s` is a primary input. -/
theorem C8_delayMap (s : String) (p : ParseOk) (fuel : Nat) (m : DelayMap)
    (h : parseCGPString s = ParseResult.ok p)
    (hm : calculateNodeDelays fuel p = some m) :
    (∀ i : Int, 0 ≤ i → i < p.config.inputs → lookupDelay m (Sum.inl i) = some 0) ∧
    (∀ (pos : Nat) (src : Int), p.outputNodeIndices.get? pos = some src →
      lookupDelay m (Sum.inr pos) = some ((lookupDelay m (Sum.inl src)).getD 0 + 1)) ∧
    (∀ (pos : Nat) (src : Int), p.outputNodeIndices.get? pos = some src →
      src < p.config.inputs → lookupDelay m (Sum.inr pos) = some 1) := by
  obtain ⟨hc, hn, ho⟩ := parse_ok_inv h
  obtain ⟨hsi, hin, hout, hrows, hcols, har⟩ := parseConfig_ok_facts hc
  unfold parseNodes at hn
  have hkeys : ∀ e ∈ p.nodeDefinitions, p.config.startIndex ≤ e.1 := by
    intro e he
    exact (processNodes_entries p.config (by omega) _ _ _ hn
      (by intro e' he'; exact absurd he' (by simp)) e he).2.2.1
  unfold calculateNodeDelays at hm
  cases hrun : runNodeLoop fuel p.nodeDefinitions p.config.inputs p.nodeDefinitions
      (initDelays p.config.inputs) with
  | none => simp only [hrun] at hm; simp at hm
  | some d1 =>
    simp only [hrun] at hm
    injection hm with hm
    subst hm
    obtain ⟨ext, hext, hpext⟩ := runNodeLoop_ext p.nodeDefinitions p.config.inputs fuel
      p.nodeDefinitions (initDelays p.config.inputs) d1 hrun
    have hino : ∀ i : Int, 0 ≤ i → i < p.config.inputs →
        lookupDelay d1 (Sum.inl i) = some 0 := by
      intro i h0 hlt
      rw [hext, lookupDelay_append_not_mem]
      · exact initDelays_lookup _ i h0 hlt
      · intro e he
        obtain ⟨j, hj, hkj⟩ := hpext e he
        have hjge : p.config.startIndex ≤ j := by
          unfold hasKey at hkj
          rw [List.any_eq_true] at hkj
          obtain ⟨e', he', hje⟩ := hkj
          have := hkeys e' he'
          simp only [decide_eq_true_eq] at hje
          omega
        rw [hj]
        intro hcontra
        injection hcontra with hcontra
        omega
    have hfin : ∀ i : Int, 0 ≤ i → i < p.config.inputs →
        lookupDelay (runOutputLoop 0 p.outputNodeIndices d1) (Sum.inl i) = some 0 := by
      intro i h0 hlt
      rw [runOutputLoop_inl]
      exact hino i h0 hlt
    have hspec : ∀ (pos : Nat) (src : Int), p.outputNodeIndices.get? pos = some src →
        lookupDelay (runOutputLoop 0 p.outputNodeIndices d1) (Sum.inr pos) =
          some ((lookupDelay (runOutputLoop 0 p.outputNodeIndices d1)
            (Sum.inl src)).getD 0 + 1) := by
      intro pos src hget
      have hout1 := runOutputLoop_spec p.outputNodeIndices 0 d1 pos src hget
      rw [Nat.zero_add] at hout1
      rw [hout1, runOutputLoop_inl]
    refine ⟨hfin, hspec, ?_⟩
    intro pos src hget hsrc
    have hmem := List.get?_mem hget
    rcases checkOutputs_none p.config p.nodeDefinitions p.outputNodeIndices
        (parseOutputs_ok_inv ho).2 src hmem with ⟨h0src, _⟩ | ⟨hge, _⟩
    · rw [hspec pos src hget, hfin src h0src hsrc]
      rfl
    · rw [hsi] at hge
      omega

/-- Witness for C8 on the spec's scenario-1 parse: input 0 has delay 0 and
output 0 has delay `delay(3) + 1`. -/
theorem C8_witness :
    lookupDelay [(Sum.inr 0, 1), (Sum.inl 3, 0), (Sum.inl 2, 0), (Sum.inl 0, 0),
      (Sum.inl 1, 0)] (Sum.inl 0) = some 0 ∧
    lookupDelay [(Sum.inr 0, 1), (Sum.inl 3, 0), (Sum.inl 2, 0), (Sum.inl 0, 0),
      (Sum.inl 1, 0)] (Sum.inr 0) =
      some ((lookupDelay [(Sum.inr 0, 1), (Sum.inl 3, 0), (Sum.inl 2, 0), (Sum.inl 0, 0),
        (Sum.inl 1, 0)] (Sum.inl 3)).getD 0 + 1) :=
  ⟨(C8_delayMap goodStr goodParse 10
      [(Sum.inr 0, 1), (Sum.inl 3, 0), (Sum.inl 2, 0), (Sum.inl 0, 0), (Sum.inl 1, 0)]
      (by decide) (by decide)).1 0 (by decide) (by decide),
   (C8_delayMap goodStr goodParse 10
      [(Sum.inr 0, 1), (Sum.inl 3, 0), (Sum.inl 2, 0), (Sum.inl 0, 0), (Sum.inl 1, 0)]
      (by decide) (by decide)).2.1 0 3 (by decide)⟩

/-! ## Claim C1 — termination of the delay computation -/

/-- The self-loop of node 2 starves every fuel budget of `getNodeDelay`:
along the cycle nothing is ever cached, so the cache check never fires. -/
theorem selfRef_getNodeDelay_none :
    ∀ (f : Nat) (delays : DelayMap), lookupDelay delays (Sum.inl 2) = none →
      getNodeDelay f 2 [(2, ⟨2, 0, [2, 1]⟩), (3, ⟨3, 1, [0, 1]⟩)] delays 2 = none := by
  intro f
  induction f with
  | zero => intro delays _; rfl
  | succ n ihn =>
    intro delays hl
    have hld : lookupDef [((2 : Int), (⟨2, 0, [2, 1]⟩ : NodeDef)),
        (3, ⟨3, 1, [0, 1]⟩)] 2 = some ⟨2, 0, [2, 1]⟩ := by decide
    have hin : inputDelaysAux
        (fun r m => getNodeDelay n r [(2, ⟨2, 0, [2, 1]⟩), (3, ⟨3, 1, [0, 1]⟩)] m 2) 2
        [2, 1] delays = none := by
      unfold inputDelaysAux
      rw [if_neg (by omega : ¬(2 : Int) < 2)]
      simp only [ihn delays hl]
    unfold getNodeDelay
    simp only [hl, hld, hin]

/-- C1, counterexample: the claim says the delay computation terminates for
every accepted string because the parser forbids forward/self references;
but the parser accepts `"{2,1,1,2,2,2,4}([2]2,1,0)([3]0,1,1)(3)"`, whose
node 2 references itself, and on that parse `calculateNodeDelays` runs out
of every fuel budget — the JS recursion diverges. -/
theorem C1_counterexample :
    parseCGPString selfRefStr = ParseResult.ok selfRefParse ∧
    delaysDiverge selfRefParse := by
  refine ⟨by decide, ?_⟩
  intro fuel
  have hrn : runNodeLoop fuel [((2 : Int), (⟨2, 0, [2, 1]⟩ : NodeDef)), (3, ⟨3, 1, [0, 1]⟩)] 2
      [(2, ⟨2, 0, [2, 1]⟩), (3, ⟨3, 1, [0, 1]⟩)] (initDelays 2) = none := by
    unfold runNodeLoop
    rw [if_neg (by omega : ¬(2 : Int) < 2)]
    rw [selfRef_getNodeDelay_none fuel (initDelays 2) (by decide)]
  simp only [calculateNodeDelays, selfRefParse]
  simp only [hrn]

/-- C1, amended: the delay computation terminates for every accepted input
whose node references additionally satisfy the no-forward/no-self condition
(`r < n` for every non-primary reference `r` of node `n`); the parser
itself does **not** enforce that condition. -/
theorem C1_amended (s : String) (p : ParseOk)
    (h : parseCGPString s = ParseResult.ok p)
    (hrefs : ∀ e ∈ p.nodeDefinitions, ∀ r ∈ e.2.inputs, p.config.inputs ≤ r → r < e.1) :
    delaysTerminate p := by
  obtain ⟨hc, _, _⟩ := parse_ok_inv h
  obtain ⟨hsi, hin, hout, hrows, hcols, har⟩ := parseConfig_ok_facts hc
  refine ⟨maxKeyNat p.nodeDefinitions + 1, ?_⟩
  obtain ⟨d1, hd1⟩ := runNodeLoop_total p.nodeDefinitions p.config.inputs hin hrefs
    (maxKeyNat p.nodeDefinitions + 1) (maxKeyNat_bound _) p.nodeDefinitions
    (fun e he => he) (initDelays p.config.inputs)
  unfold calculateNodeDelays
  simp only [hd1]
  exact ⟨_, rfl⟩

/-- Witness for C1 on the spec's scenario-1 parse, whose references are all
backward. -/
theorem C1_witness : delaysTerminate goodParse :=
  C1_amended goodStr goodParse (by decide) (by decide)
